import Mathlib

/-!
Verification of the mini_manim animation timeline and interpolation engine.

The Python source is shallowly embedded over exact rationals:
floating point numbers become `ℚ`, `math.pi` becomes the exact rational
value of the IEEE-754 double `math.pi`, mutation of the single animated
mobject becomes explicit state passing, and the `_pending_operations`
queue of the builder becomes a `List Op`.

Embedded modules:
* `mini_manim/core/mobject.py`  — the animatable state (`MState`).
* `mini_manim/easing.py`        — easing functions (the sine-based ones
  use transcendental `cos`/`sin` and are not rational; no claim here
  depends on them).
* `mini_manim/animations/transform.py` — `Transform._interpolate`,
  including the shortest-path rotation normalization loops.
* `mini_manim/core/animation.py` — `Animation.begin/interpolate/finish`
  and `AnimationBuilder.build`.
* `mini_manim/core/scene.py`    — `Scene.play` / `Scene.wait`.
* `mini_manim/core/renderer.py` — the frame loop of
  `CairoRenderer.render_scene` (minus pixel painting).
* the `Timeline` class and the `Move`/`Scale`/`Rotate`/`FadeIn`/`FadeOut`
  animation classes are imported by the source but their files are not in
  the repository snapshot; they are modelled from the specification where
  marked below.
-/

namespace MiniManim

/-- Exact rational value of the IEEE-754 double `math.pi`
(3.141592653589793115997963…), the constant used by
`Transform._interpolate` through `import math`. -/
def mathPi : ℚ := 884279719003555 / 281474976710656

/-- Animatable state of an `MObject` (`mobject.py`): position (2D),
`scale_factor`, `rotation` (radians), `opacity`, `fill_opacity`,
`stroke_opacity` and the three color channels. -/
@[ext]
structure MState where
  posX : ℚ
  posY : ℚ
  scale_factor : ℚ
  rotation : ℚ
  opacity : ℚ
  fill_opacity : ℚ
  stroke_opacity : ℚ
  colorR : ℚ
  colorG : ℚ
  colorB : ℚ
deriving Repr, DecidableEq

/-! Easing functions from `easing.py` (the rational ones). -/

/-- Linear interpolation (`easing.linear`). -/
def linear (t : ℚ) : ℚ := t

/-- Quadratic ease-in (`easing.ease_in_quad`). -/
def ease_in_quad (t : ℚ) : ℚ := t * t

/-- Quadratic ease-out (`easing.ease_out_quad`). -/
def ease_out_quad (t : ℚ) : ℚ := 1 - (1 - t) * (1 - t)

/-- Quadratic ease-in-out (`easing.ease_in_out_quad`). -/
def ease_in_out_quad (t : ℚ) : ℚ :=
  if t < 1/2 then 2 * t * t else 1 - (-2 * t + 2) ^ 2 / 2

/-- Cubic ease-in (`easing.ease_in_cubic`). -/
def ease_in_cubic (t : ℚ) : ℚ := t * t * t

/-- Cubic ease-out (`easing.ease_out_cubic`). -/
def ease_out_cubic (t : ℚ) : ℚ := 1 - (1 - t) ^ 3

/-- Cubic ease-in-out (`easing.ease_in_out_cubic`). -/
def ease_in_out_cubic (t : ℚ) : ℚ :=
  if t < 1/2 then 4 * t * t * t else 1 - (-2 * t + 2) ^ 3 / 2

/-- Manim-style smoothstep (`easing.smooth`). -/
def smooth (t : ℚ) : ℚ := t * t * (3 - 2 * t)

/-- Back ease-in (`easing.ease_in_back`), overshoot constant 1.70158. -/
def ease_in_back (t : ℚ) : ℚ :=
  let c1 : ℚ := 170158/100000
  let c3 : ℚ := c1 + 1
  c3 * t * t * t - c1 * t * t

/-- Back ease-out (`easing.ease_out_back`). -/
def ease_out_back (t : ℚ) : ℚ :=
  let c1 : ℚ := 170158/100000
  let c3 : ℚ := c1 + 1
  1 + c3 * (t - 1) ^ 3 + c1 * (t - 1) ^ 2

/-- Back ease-in-out (`easing.ease_in_out_back`), constant scaled by 1.525. -/
def ease_in_out_back (t : ℚ) : ℚ :=
  let c1 : ℚ := 170158/100000
  let c2 : ℚ := c1 * (61/40)
  if t < 1/2 then ((2 * t) ^ 2 * ((c2 + 1) * 2 * t - c2)) / 2
  else ((2 * t - 2) ^ 2 * ((c2 + 1) * (t * 2 - 2) + c2) + 2) / 2

/-!
Shortest-path rotation normalization, from `Transform._interpolate`:

    while diff > math.pi:
        diff -= 2 * math.pi
    while diff < -math.pi:
        diff += 2 * math.pi

Each loop is embedded as a fuel-indexed structural recursion together
with the exact number of iterations the loop performs, so the embedded
function is computable and provably equal to the loop's result.
-/

/-- Number of iterations of the first `while` loop (`diff > pi`). -/
def stepsAbove (d : ℚ) : ℕ := (⌈(d - mathPi) / (2 * mathPi)⌉).toNat

/-- Number of iterations of the second `while` loop (`diff < -pi`). -/
def stepsBelow (d : ℚ) : ℕ := (⌈(-mathPi - d) / (2 * mathPi)⌉).toNat

/-- Fuel-indexed form of `while diff > pi: diff -= 2*pi`. -/
def wrapDownF : ℕ → ℚ → ℚ
  | 0, d => d
  | n + 1, d => if mathPi < d then wrapDownF n (d - 2 * mathPi) else d

/-- Fuel-indexed form of `while diff < -pi: diff += 2*pi`. -/
def wrapUpF : ℕ → ℚ → ℚ
  | 0, d => d
  | n + 1, d => if d < -mathPi then wrapUpF n (d + 2 * mathPi) else d

/-- Result of the first loop. -/
def wrapDown (d : ℚ) : ℚ := wrapDownF (stepsAbove d) d

/-- Result of the second loop. -/
def wrapUp (d : ℚ) : ℚ := wrapUpF (stepsBelow d) d

/-- The normalized rotation difference computed by `Transform._interpolate`:
first loop brings `diff` at or below `pi`, second brings it at or
above `-pi`. -/
def normDiff (d : ℚ) : ℚ := wrapUp (wrapDown d)

/-- Pure form of `Transform._interpolate` (`transform.py`): the state
written to the target mobject, computed from the captured `initial`
and `final` snapshots and the eased alpha.  Every animatable property
is linearly interpolated except `rotation`, which moves along the
normalized shortest-path difference. -/
def transformInterp (ini fin : MState) (alpha : ℚ) : MState where
  posX := ini.posX + alpha * (fin.posX - ini.posX)
  posY := ini.posY + alpha * (fin.posY - ini.posY)
  scale_factor := ini.scale_factor + alpha * (fin.scale_factor - ini.scale_factor)
  rotation := ini.rotation + alpha * normDiff (fin.rotation - ini.rotation)
  opacity := ini.opacity + alpha * (fin.opacity - ini.opacity)
  fill_opacity := ini.fill_opacity + alpha * (fin.fill_opacity - ini.fill_opacity)
  stroke_opacity := ini.stroke_opacity + alpha * (fin.stroke_opacity - ini.stroke_opacity)
  colorR := ini.colorR + alpha * (fin.colorR - ini.colorR)
  colorG := ini.colorG + alpha * (fin.colorG - ini.colorG)
  colorB := ini.colorB + alpha * (fin.colorB - ini.colorB)

/-- A `Transform` animation object (`transform.py` + the base-class
fields of `animation.py`): the bound reference object
(`target_mobject`), `duration`, `easing`, the `_started` flag and the
two snapshot dictionaries (`None` standing for the initial empty
dicts). -/
structure TransformAnim where
  target_mobject : MState
  duration : ℚ
  easing : ℚ → ℚ
  started : Bool := false
  initialState : Option MState := none
  finalState : Option MState := none

/-- `Animation.begin` (`animation.py` lines 50–54): unconditionally
captures both snapshots from the current states and sets `_started`.
The source has no started-guard in this method. -/
def TransformAnim.begin (a : TransformAnim) (m : MState) : TransformAnim :=
  { a with initialState := some m, finalState := some a.target_mobject,
           started := true }

/-- `Animation.interpolate` (`animation.py` lines 84–101): begins the
animation if not yet started, applies the easing function to the raw
alpha, clamps the result to `[0, 1]` and writes the interpolated state.
Returns the updated animation object and target state.  (If the
snapshots were absent while `_started` is set — a state no source path
produces — the Python code would raise; the embedding leaves the target
unchanged there.) -/
def TransformAnim.interpolate (a : TransformAnim) (alpha : ℚ) (m : MState) :
    TransformAnim × MState :=
  let a' := if a.started then a else a.begin m
  let eased := max 0 (min 1 (a'.easing alpha))
  match a'.initialState, a'.finalState with
  | some ini, some fin => (a', transformInterp ini fin eased)
  | _, _ => (a', m)

/-- `Animation.finish` (`animation.py` lines 56–61): begins the
animation if never started, then interpolates at raw alpha `1.0`. -/
def TransformAnim.finish (a : TransformAnim) (m : MState) :
    TransformAnim × MState :=
  let a' := if a.started then a else a.begin m
  a'.interpolate 1 m

/-! Builder queue (`AnimationBuilder`, `animation.py`). -/

/-- A queued operation record of `AnimationBuilder._pending_operations`. -/
inductive Op where
  | move_to (x y : ℚ)
  | shift (dx dy : ℚ)
  | scaleBy (factor : ℚ)
  | rotate (angle : ℚ)
  | fade_in
  | fade_out
  | set_color (r g b : ℚ)
  | set_opacity (o : ℚ)
deriving Repr, DecidableEq

/-- Modelled from the spec: the concrete animation classes
`Move`, `Scale`, `Rotate`, `FadeIn`, `FadeOut` are imported from
`mini_manim/animations/move.py` etc., files absent from the repository
snapshot.  Per the spec they are variants that record their
construction arguments (absolute target point, scale factor, rotation
delta) plus the shared `duration`; the `Direct` constructor stands for
an arbitrary `Animation` instance handed directly to `Scene.play`, of
which the scheduling code reads only the `duration` attribute.  The
classes also store the easing function, which no scheduling code
consulted here reads, so it is omitted to keep equality decidable. -/
inductive BuiltAnim where
  | Move (targetX targetY : ℚ) (duration : ℚ)
  | Scale (target_scale : ℚ) (duration : ℚ)
  | Rotate (angle : ℚ) (duration : ℚ)
  | FadeIn (duration : ℚ)
  | FadeOut (duration : ℚ)
  | Direct (duration : ℚ)
deriving Repr, DecidableEq

/-- Duration attribute of a built animation. -/
def BuiltAnim.duration : BuiltAnim → ℚ
  | .Move _ _ d => d
  | .Scale _ d => d
  | .Rotate _ d => d
  | .FadeIn d => d
  | .FadeOut d => d
  | .Direct d => d

/-- `AnimationBuilder.build` (`animation.py` lines 196–219): walks the
queue in insertion order; `move_to`/`scale`/`rotate`/`fade_in`/`fade_out`
emit one animation each; `shift` is resolved against the mobject's
position at the moment `build` runs (`pos` here); `set_color` and
`set_opacity` are silently dropped (no branch in the source).  All
emitted animations are stamped with the supplied `duration`.  The
source also clears the queue afterwards; callers below thread a fresh
queue, matching that. -/
def build (ops : List Op) (pos : ℚ × ℚ) (duration : ℚ) : List BuiltAnim :=
  ops.filterMap fun op =>
    match op with
    | .move_to x y => some (.Move x y duration)
    | .shift dx dy => some (.Move (pos.1 + dx) (pos.2 + dy) duration)
    | .scaleBy f => some (.Scale f duration)
    | .rotate ang => some (.Rotate ang duration)
    | .fade_in => some (.FadeIn duration)
    | .fade_out => some (.FadeOut duration)
    | .set_color _ _ _ => none
    | .set_opacity _ => none

/-!
Timeline.  The file `mini_manim/core/timeline.py` is imported by the
source (`renderer.py`, `scene.py`, `core/__init__.py`) but is absent
from the repository snapshot, so the class is modelled from the
specification, §4.4.
-/

/-- Python's built-in `round` on an exact rational value:
round-half-to-even (banker's rounding). -/
def pyRound (q : ℚ) : ℤ :=
  let f := ⌊q⌋
  let r := q - f
  if r < 1/2 then f
  else if 1/2 < r then f + 1
  else if f % 2 = 0 then f else f + 1

/-- Modelled from the spec: the `Timeline` class (`timeline.py`, absent
from the snapshot).  Per §4.4 it holds an ordered list of blocks — each
a parallel group of animations tagged with its duration — and a frame
rate `fps`. -/
structure Timeline (A : Type) where
  blocks : List (List A × ℚ)
  fps : ℚ

/-- Modelled from the spec: `frame_span = round(block.duration * fps)`
(§4.4). -/
def frameSpan (duration fps : ℚ) : ℤ := pyRound (duration * fps)

/-- Modelled from the spec:
`total_frames() = round(sum(block.duration for block in blocks) * fps)`
(§4.4, §8). -/
def Timeline.total_frames (tl : Timeline A) : ℤ :=
  pyRound ((tl.blocks.map (fun b => b.2)).sum * tl.fps)

/-- Sum of the per-block frame spans; blocks are laid out back-to-back,
block `i` occupying global frames `[offset_i, offset_i + span_i)` (§4.4). -/
def Timeline.sumSpans (tl : Timeline A) : ℤ :=
  (tl.blocks.map (fun b => frameSpan b.2 tl.fps)).sum

/-- Modelled from the spec: the progress reported for one animation of
the active block, `progress = local_time / animation.duration` with the
division-by-zero guard `duration == 0 → progress = 1.0` (§4.4). -/
def progressOf (dur localTime : ℚ) : ℚ :=
  if dur = 0 then 1 else localTime / dur

/-- Modelled from the spec: the block search of `get_active_animations`
(§4.4): locate the block whose span contains the frame, walking the
blocks front to back; `aDur` reads the `duration` attribute of an
animation. -/
def getActiveAux (aDur : A → ℚ) (fps : ℚ) :
    List (List A × ℚ) → ℤ → List (A × ℚ)
  | [], _ => []
  | (anims, d) :: rest, frame =>
    if frame < frameSpan d fps then
      anims.map fun a => (a, progressOf (aDur a) ((frame : ℚ) / fps))
    else
      getActiveAux aDur fps rest (frame - frameSpan d fps)

/-- Modelled from the spec: `Timeline.get_active_animations(frame)`
(§4.4): the `(animation, progress)` pairs of the block containing
`frame`; frames beyond every block yield the empty list. -/
def Timeline.get_active_animations (aDur : A → ℚ) (tl : Timeline A)
    (frame : ℤ) : List (A × ℚ) :=
  getActiveAux aDur tl.fps tl.blocks frame

/-- Modelled from the spec: `Timeline.add_block(animations, duration,
sequential)` appends one block; the `sequential` flag does not change
scheduling semantics (§4.4). -/
def Timeline.add_block (tl : Timeline A) (anims : List A) (duration : ℚ)
    (_sequential : Bool) : Timeline A :=
  { tl with blocks := tl.blocks ++ [(anims, duration)] }

/-- Modelled from the spec: `Timeline.add_parallel(animations, duration)`
appends one parallel block (§4.4). -/
def Timeline.add_parallel (tl : Timeline A) (anims : List A)
    (duration : ℚ) : Timeline A :=
  { tl with blocks := tl.blocks ++ [(anims, duration)] }

/-- Index of the block selected for a frame by the `get_active_animations`
search, if any: the first block whose remaining span contains the frame. -/
def coverIdx : List ℤ → ℤ → Option ℕ
  | [], _ => none
  | s :: rest, frame =>
    if frame < s then some 0
    else (coverIdx rest (frame - s)).map (· + 1)

/-!
Scene (`scene.py`).  A scene's timeline accepts `Animation` objects and
`AnimationBuilder`s through `play`, and empty wait blocks through
`wait`.
-/

/-- One positional argument of `Scene.play`: an `Animation` instance, an
`AnimationBuilder` (carrying its queue and its mobject's position at
the moment `play` runs, which `build` reads to resolve `shift`), or any
other Python value (`invalid`). -/
inductive PlayArg where
  | anim (a : BuiltAnim)
  | builder (pos : ℚ × ℚ) (ops : List Op)
  | invalid
deriving Repr, DecidableEq

/-- The argument loop of `Scene.play` (`scene.py` lines 80–91): builders
are expanded via `build`, animation objects are appended directly, and
any other value raises `TypeError` (`Except.error`). -/
def collectAnims (duration : ℚ) : List PlayArg → Except Unit (List BuiltAnim)
  | [] => .ok []
  | .anim a :: rest => (collectAnims duration rest).map (a :: ·)
  | .builder pos ops :: rest =>
      (collectAnims duration rest).map (build ops pos duration ++ ·)
  | .invalid :: _ => .error ()

/-- Maximum over the durations of a nonempty animation list
(`max(anim.duration for anim in animation_list)`). -/
def maxDuration (a : BuiltAnim) (rest : List BuiltAnim) : ℚ :=
  (rest.map BuiltAnim.duration).foldl max a.duration

/-- `Scene.play` (`scene.py` lines 60–97): collect the animations,
raising `TypeError` at the first invalid argument (before anything is
added to the timeline — `add_parallel` runs only after the loop);
if the collected list is nonempty, append one parallel block whose
duration is the maximum animation duration.  The first component is
`some ()` when a `TypeError` was raised; the second is the resulting
timeline. -/
def Scene.play (tl : Timeline BuiltAnim) (args : List PlayArg)
    (duration : ℚ) : Option Unit × Timeline BuiltAnim :=
  match collectAnims duration args with
  | .error _ => (some (), tl)
  | .ok [] => (none, tl)
  | .ok (a :: rest) => (none, tl.add_parallel (a :: rest) (maxDuration a rest))

/-- `Scene.wait` (`scene.py` lines 99–107): append an empty block with
the given duration, with no validation of the duration. -/
def Scene.wait (tl : Timeline BuiltAnim) (duration : ℚ) :
    Timeline BuiltAnim :=
  tl.add_block [] duration false

/-!
Render loop (`renderer.py`, `CairoRenderer.render_scene`, lines
133–177), specialized to a scene holding one mobject whose animations
are all `Transform`s.  The painting of pixels is outside the engine;
what is embedded is exactly the state evolution: first every animation
of every block is begun, then each frame's active animations are
interpolated in order.
-/

/-- The eager initialization loop of `render_scene`:
`for block, _ in timeline.blocks: for anim in block.animations: anim.begin()`.
It runs before any frame is rendered; `begin` does not modify the
mobject, so every animation captures the same pre-frame-0 state. -/
def beginTimeline (tl : Timeline TransformAnim) (m : MState) :
    Timeline TransformAnim :=
  { tl with blocks := tl.blocks.map fun b => (b.1.map (·.begin m), b.2) }

/-- One frame of the render loop: interpolate each active animation in
block order, threading the mobject state. -/
def frameStep (tl : Timeline TransformAnim) (m : MState) (frame : ℤ) :
    MState :=
  (tl.get_active_animations TransformAnim.duration frame).foldl
    (fun s p => (p.1.interpolate p.2 s).2) m

/-- Mobject states after each successive frame of the given list. -/
def runFrames (tl : Timeline TransformAnim) (m : MState) :
    List ℤ → List MState
  | [] => []
  | f :: fs =>
    let m' := frameStep tl m f
    m' :: runFrames tl m' fs

/-- The render loop of `render_scene`: begin every animation, then run
frames `0 .. total_frames - 1`, returning the mobject state after each
frame's interpolation pass (the state the renderer paints). -/
def renderStates (tl : Timeline TransformAnim) (m : MState) :
    List MState :=
  runFrames (beginTimeline tl m) m
    ((List.range tl.total_frames.toNat).map fun n => (n : ℤ))

/-- Containment of a frame in block `i` of a span list, per the spec
layout (§4.4): block `i` occupies `[offset_i, offset_i + span_i)` with
`offset_i` the sum of the preceding spans. -/
def inBlock (spans : List ℤ) (i : ℕ) (frame : ℤ) : Prop :=
  i < spans.length ∧ (spans.take i).sum ≤ frame ∧ frame < (spans.take (i + 1)).sum

/-- A builder queue consisting solely of `set_color` / `set_opacity`
records — the operations `build` silently drops. -/
def onlySetOps (ops : List Op) : Prop :=
  ∀ op ∈ ops, (∃ r g b, op = Op.set_color r g b) ∨ (∃ o, op = Op.set_opacity o)

/-! Concrete fixtures used by the theorems below. -/

/-- A mobject's default animatable state at position `(0, 0)` (the
`MObject.__init__` defaults: scale 1, rotation 0, opacity 1, no fill,
stroke opacity 1, white color). -/
def m0 : MState := ⟨0, 0, 1, 0, 1, 0, 1, 1, 1, 1⟩

/-- Reference state: `m0` moved to `x = 10`. -/
def refA : MState := { m0 with posX := 10 }

/-- Reference state: `m0` moved to `x = 20`. -/
def refB : MState := { m0 with posX := 20 }

/-- A one-second linear `Transform` towards `refA`. -/
def animA : TransformAnim :=
  { target_mobject := refA, duration := 1, easing := linear }

/-- A one-second linear `Transform` towards `refB`. -/
def animB : TransformAnim :=
  { target_mobject := refB, duration := 1, easing := linear }

/-- Two sequential one-animation blocks on the same mobject at 2 fps:
block 1 plays `animA`, block 2 plays `animB`. -/
def tlC1 : Timeline TransformAnim := ⟨[([animA], 1), ([animB], 1)], 2⟩

/-- Two wait blocks of 0.33 s at 10 fps: the timeline whose rounded
total frame count exceeds the sum of its rounded block spans. -/
def tlGap : Timeline ℚ := ⟨[([], 33/100), ([], 33/100)], 10⟩

/-! Helper lemmas. -/

lemma mathPi_pos : 0 < mathPi := by norm_num [mathPi]

lemma twoPi_pos : 0 < 2 * mathPi := by norm_num [mathPi]

lemma wrapDownF_le : ∀ (n : ℕ) (d : ℚ), stepsAbove d ≤ n → wrapDownF n d ≤ mathPi := by
  intro n
  induction n with
  | zero =>
    intro d h
    have h0 : (⌈(d - mathPi) / (2 * mathPi)⌉ : ℤ) ≤ 0 := by
      have := Nat.le_zero.mp h
      simpa [stepsAbove, Int.toNat_eq_zero] using this
    have h1 : (d - mathPi) / (2 * mathPi) ≤ 0 := by
      have := Int.ceil_le.mp h0
      simpa using this
    have h2 : d - mathPi ≤ 0 := by
      by_contra hc
      push_neg at hc
      have := div_pos hc twoPi_pos
      linarith
    show wrapDownF 0 d ≤ mathPi
    have hle : d ≤ mathPi := by linarith
    exact hle
  | succ n ih =>
    intro d h
    by_cases hc : mathPi < d
    · have hstep : stepsAbove (d - 2 * mathPi) ≤ n := by
        have hact : ((d - 2 * mathPi) - mathPi) / (2 * mathPi)
            = (d - mathPi) / (2 * mathPi) - 1 := by
          have hre : ((d - 2 * mathPi) - mathPi) = (d - mathPi) - (2 * mathPi) := by ring
          rw [hre, sub_div, div_self (ne_of_gt twoPi_pos)]
        have hceil : (⌈((d - 2 * mathPi) - mathPi) / (2 * mathPi)⌉ : ℤ)
            = ⌈(d - mathPi) / (2 * mathPi)⌉ - 1 := by
          rw [hact]
          exact_mod_cast Int.ceil_sub_int ((d - mathPi) / (2 * mathPi)) 1
        have hle : (⌈(d - mathPi) / (2 * mathPi)⌉ : ℤ) ≤ (n : ℤ) + 1 := by
          have := h
          simp only [stepsAbove] at this
          omega
        simp only [stepsAbove, hceil]
        omega
      simpa [wrapDownF, hc] using ih _ hstep
    · push_neg at hc
      simpa [wrapDownF, not_lt.mpr hc] using hc

lemma wrapDown_le (d : ℚ) : wrapDown d ≤ mathPi := wrapDownF_le _ d le_rfl

lemma wrapUpF_ge : ∀ (n : ℕ) (d : ℚ), stepsBelow d ≤ n → -mathPi ≤ wrapUpF n d := by
  intro n
  induction n with
  | zero =>
    intro d h
    have h0 : (⌈(-mathPi - d) / (2 * mathPi)⌉ : ℤ) ≤ 0 := by
      have := Nat.le_zero.mp h
      simpa [stepsBelow, Int.toNat_eq_zero] using this
    have h1 : (-mathPi - d) / (2 * mathPi) ≤ 0 := by
      have := Int.ceil_le.mp h0
      simpa using this
    have h2 : -mathPi - d ≤ 0 := by
      by_contra hcon
      push_neg at hcon
      have := div_pos hcon twoPi_pos
      linarith
    show -mathPi ≤ wrapUpF 0 d
    have hle : -mathPi ≤ d := by linarith
    exact hle
  | succ n ih =>
    intro d h
    by_cases hc : d < -mathPi
    · have hstep : stepsBelow (d + 2 * mathPi) ≤ n := by
        have hact : (-mathPi - (d + 2 * mathPi)) / (2 * mathPi)
            = (-mathPi - d) / (2 * mathPi) - 1 := by
          have hre : (-mathPi - (d + 2 * mathPi)) = (-mathPi - d) - (2 * mathPi) := by ring
          rw [hre, sub_div, div_self (ne_of_gt twoPi_pos)]
        have hceil : (⌈(-mathPi - (d + 2 * mathPi)) / (2 * mathPi)⌉ : ℤ)
            = ⌈(-mathPi - d) / (2 * mathPi)⌉ - 1 := by
          rw [hact]
          exact_mod_cast Int.ceil_sub_int ((-mathPi - d) / (2 * mathPi)) 1
        have hle : (⌈(-mathPi - d) / (2 * mathPi)⌉ : ℤ) ≤ (n : ℤ) + 1 := by
          have := h
          simp only [stepsBelow] at this
          omega
        simp only [stepsBelow, hceil]
        omega
      simpa [wrapUpF, hc] using ih _ hstep
    · push_neg at hc
      simpa [wrapUpF, not_lt.mpr hc] using hc

lemma wrapUpF_le : ∀ (n : ℕ) (d : ℚ), d ≤ mathPi → wrapUpF n d ≤ mathPi := by
  intro n
  induction n with
  | zero => intro d h; simpa [wrapUpF] using h
  | succ n ih =>
    intro d h
    by_cases hc : d < -mathPi
    · have : d + 2 * mathPi ≤ mathPi := by
        have := mathPi_pos
        linarith
      simpa [wrapUpF, hc] using ih _ this
    · simpa [wrapUpF, hc] using h

lemma normDiff_le (d : ℚ) : normDiff d ≤ mathPi :=
  wrapUpF_le _ _ (wrapDown_le d)

lemma normDiff_ge (d : ℚ) : -mathPi ≤ normDiff d :=
  wrapUpF_ge _ _ le_rfl

lemma abs_normDiff_le (d : ℚ) : |normDiff d| ≤ mathPi :=
  abs_le.mpr ⟨normDiff_ge d, normDiff_le d⟩

lemma wrapDownF_eq_sub (n : ℕ) : ∀ d : ℚ, ∃ k : ℤ, wrapDownF n d = d - 2 * mathPi * k := by
  induction n with
  | zero => intro d; exact ⟨0, by simp [wrapDownF]⟩
  | succ n ih =>
    intro d
    by_cases hc : mathPi < d
    · obtain ⟨k, hk⟩ := ih (d - 2 * mathPi)
      exact ⟨k + 1, by simp [wrapDownF, hc, hk]; ring⟩
    · exact ⟨0, by simp [wrapDownF, hc]⟩

lemma wrapUpF_eq_add (n : ℕ) : ∀ d : ℚ, ∃ k : ℤ, wrapUpF n d = d + 2 * mathPi * k := by
  induction n with
  | zero => intro d; exact ⟨0, by simp [wrapUpF]⟩
  | succ n ih =>
    intro d
    by_cases hc : d < -mathPi
    · obtain ⟨k, hk⟩ := ih (d + 2 * mathPi)
      exact ⟨k + 1, by simp [wrapUpF, hc, hk]; ring⟩
    · exact ⟨0, by simp [wrapUpF, hc]⟩

lemma normDiff_eq_add (d : ℚ) : ∃ k : ℤ, normDiff d = d + 2 * mathPi * k := by
  obtain ⟨k1, h1⟩ := wrapDownF_eq_sub (stepsAbove d) d
  obtain ⟨k2, h2⟩ := wrapUpF_eq_add (stepsBelow (wrapDown d)) (wrapDown d)
  refine ⟨k2 - k1, ?_⟩
  simp only [normDiff, wrapUp, wrapDown] at *
  rw [h2, h1]
  push_cast
  ring

lemma pyRound_nonneg (q : ℚ) (h : 0 ≤ q) : 0 ≤ pyRound q := by
  have hf : (0 : ℤ) ≤ ⌊q⌋ := Int.floor_nonneg.mpr h
  simp only [pyRound]
  split_ifs <;> omega

lemma coverIdx_spec : ∀ (spans : List ℤ) (frame : ℤ), (∀ s ∈ spans, 0 ≤ s) →
    0 ≤ frame → frame < spans.sum →
    ∃ i, coverIdx spans frame = some i ∧ inBlock spans i frame ∧
      ∀ j, inBlock spans j frame → j = i := by
  intro spans
  induction spans with
  | nil =>
    intro frame _ h0 hlt
    simp only [List.sum_nil] at hlt
    omega
  | cons s rest ih =>
    intro frame hnn h0 hlt
    by_cases hc : frame < s
    · refine ⟨0, by simp [coverIdx, hc], ?_, ?_⟩
      · refine ⟨by simp, by simp [h0], ?_⟩
        simpa using hc
      · rintro j ⟨hjlen, hjle, hjlt⟩
        rcases j with _ | j
        · rfl
        · exfalso
          have hrest : 0 ≤ ((rest.take j).sum) := by
            apply List.sum_nonneg
            intro x hx
            exact hnn x (List.mem_cons_of_mem s (List.mem_of_mem_take hx))
          simp only [List.take_succ_cons, List.sum_cons] at hjle
          omega
    · push_neg at hc
      have hrec := ih (frame - s) (fun x hx => hnn x (List.mem_cons_of_mem s hx))
        (by omega) (by simp only [List.sum_cons] at hlt; omega)
      obtain ⟨i, hcov, hin, huniq⟩ := hrec
      refine ⟨i + 1, ?_, ?_, ?_⟩
      · simp [coverIdx, not_lt.mpr hc, hcov]
      · obtain ⟨hilen, hile, hilt⟩ := hin
        refine ⟨by simpa using hilen, ?_, ?_⟩
        · simp only [List.take_succ_cons, List.sum_cons]
          omega
        · simp only [List.take_succ_cons, List.sum_cons]
          omega
      · rintro j ⟨hjlen, hjle, hjlt⟩
        rcases j with _ | j
        · exfalso
          simp only [List.take_succ_cons, List.take_zero, List.sum_cons,
            List.sum_nil] at hjlt
          omega
        · have : inBlock rest j (frame - s) := by
            refine ⟨by simpa using hjlen, ?_, ?_⟩
            · simp only [List.take_succ_cons, List.sum_cons] at hjle
              omega
            · simp only [List.take_succ_cons, List.sum_cons] at hjlt
              omega
          exact congrArg (· + 1) (huniq j this)

lemma getActiveAux_spec {A : Type} (aDur : A → ℚ) (fps : ℚ) :
    ∀ (blocks : List (List A × ℚ)) (frame : ℤ) (i : ℕ),
    coverIdx (blocks.map fun b => frameSpan b.2 fps) frame = some i →
    getActiveAux aDur fps blocks frame =
      (blocks.getD i ([], 0)).1.map fun a =>
        (a, progressOf (aDur a)
          (((frame : ℚ) -
            ((((blocks.map fun b => frameSpan b.2 fps).take i).sum : ℤ) : ℚ)) / fps)) := by
  intro blocks
  induction blocks with
  | nil => intro frame i h; simp [coverIdx] at h
  | cons b rest ih =>
    intro frame i h
    simp only [List.map_cons, coverIdx] at h
    by_cases hc : frame < frameSpan b.2 fps
    · rw [if_pos hc] at h
      obtain rfl : i = 0 := by simpa using h.symm
      simp only [getActiveAux, if_pos hc, List.getD_cons_zero, List.take_zero,
        List.sum_nil, Int.cast_zero, sub_zero]
    · rw [if_neg hc] at h
      obtain ⟨i', hi', rfl⟩ := Option.map_eq_some'.mp h
      have := ih (frame - frameSpan b.2 fps) i' hi'
      simp only [getActiveAux, if_neg hc, this, List.getD_cons_succ,
        List.map_cons, List.take_succ_cons, List.sum_cons]
      push_cast
      ring_nf

lemma collectAnims_error_iff (dur : ℚ) :
    ∀ args : List PlayArg, collectAnims dur args = .error () ↔ PlayArg.invalid ∈ args := by
  intro args
  induction args with
  | nil => simp [collectAnims]
  | cons a rest ih =>
    cases a with
    | anim b =>
      simp only [collectAnims, List.mem_cons]
      constructor
      · intro h
        rcases hrec : collectAnims dur rest with e | l
        · exact Or.inr (ih.mp (by cases e; exact hrec))
        · rw [hrec] at h; simp [Except.map] at h
      · rintro (h | h)
        · exact absurd h (by simp)
        · rcases hrec : collectAnims dur rest with e | l
          · cases e; simp [Except.map, hrec]
          · exact absurd (ih.mpr h) (by simp [hrec])
    | builder pos ops =>
      simp only [collectAnims, List.mem_cons]
      constructor
      · intro h
        rcases hrec : collectAnims dur rest with e | l
        · exact Or.inr (ih.mp (by cases e; exact hrec))
        · rw [hrec] at h; simp [Except.map] at h
      · rintro (h | h)
        · exact absurd h (by simp)
        · rcases hrec : collectAnims dur rest with e | l
          · cases e; simp [Except.map, hrec]
          · exact absurd (ih.mpr h) (by simp [hrec])
    | invalid => simp [collectAnims]

lemma build_onlySet (ops : List Op) (pos : ℚ × ℚ) (dur : ℚ) (h : onlySetOps ops) :
    build ops pos dur = [] := by
  rw [build, List.filterMap_eq_nil_iff]
  intro op hop
  rcases h op hop with ⟨r, g, b, rfl⟩ | ⟨o, rfl⟩ <;> rfl

lemma collect_onlySet (dur : ℚ) : ∀ args : List PlayArg,
    (∀ a ∈ args, ∃ pos ops, a = PlayArg.builder pos ops ∧ onlySetOps ops) →
    collectAnims dur args = .ok [] := by
  intro args
  induction args with
  | nil => intro _; rfl
  | cons a rest ih =>
    intro h
    obtain ⟨pos, ops, rfl, hops⟩ := h a (List.mem_cons_self a rest)
    have hrec := ih fun x hx => h x (List.mem_cons_of_mem _ hx)
    simp [collectAnims, hrec, Except.map, build_onlySet ops pos dur hops]

/-! Claim theorems. -/

/-- Claim C1 (code bug): the claim states that the `initial` snapshot
captured by `begin()` equals the target's state at the moment the
animation's own block begins, so that a later block's animation captures
the state resulting from all earlier blocks.  The render loop of
`CairoRenderer.render_scene` instead begins every animation of every
block before frame 0.  On the concrete two-block scene `tlC1` (object
at `x = 0`; block 1 a linear `Transform` to `x = 10`; block 2 a linear
`Transform` to `x = 20`; 2 fps) the rendered x-positions are
`[0, 5, 0, 10]`: block 2's animation captured `initial = m0`
(`posX = 0`, the pre-frame-0 state) although the object's state at the
moment block 2 begins has `posX = 5`, so the object jumps back to 0 at
frame 2. -/
theorem C1_render_begin_precapture :
    (renderStates tlC1 m0).map MState.posX = [0, 5, 0, 10]
    ∧ beginTimeline tlC1 m0 = ⟨[([animA.begin m0], 1), ([animB.begin m0], 1)], 2⟩
    ∧ (animB.begin m0).initialState = some m0
    ∧ m0.posX = 0 := by
  refine ⟨?_, rfl, rfl, rfl⟩
  have htot : tlC1.total_frames = 4 := by
    have h : (⌊((1 + (1 + 0)) * 2 : ℚ)⌋ : ℤ) = 4 := by norm_num [Int.floor_eq_iff]
    simp only [Timeline.total_frames, tlC1, List.map, List.sum_cons, List.sum_nil,
      pyRound, h]
    norm_num
  have hspan : frameSpan 1 2 = 2 := by
    have h : (⌊(1 * 2 : ℚ)⌋ : ℤ) = 2 := by norm_num [Int.floor_eq_iff]
    simp only [frameSpan, pyRound, h]
    norm_num
  have hr : ((List.range (4:ℤ).toNat).map fun n => (n:ℤ)) = [0,1,2,3] := rfl
  simp only [renderStates, htot]
  rw [hr]
  simp only [beginTimeline, tlC1, List.map, TransformAnim.begin]
  norm_num [runFrames, frameStep, Timeline.get_active_animations, getActiveAux,
    hspan, TransformAnim.interpolate, transformInterp, progressOf, linear,
    max_def, min_def, animA, animB, refA, refB, m0]

/-- Claim C2 counterexample: `Animation.begin` is not idempotent.  A
begun animation whose target has since moved to `refA` re-captures on a
second `begin()` call: the `initial` snapshot changes from `some m0` to
`some refA`. -/
theorem C2_begin_recapture_cex :
    ((TransformAnim.mk refB 1 linear false none none).begin m0).started = true
    ∧ (((TransformAnim.mk refB 1 linear false none none).begin m0).begin refA).initialState
        = some refA
    ∧ (((TransformAnim.mk refB 1 linear false none none).begin m0).begin refA).initialState
        ≠ ((TransformAnim.mk refB 1 linear false none none).begin m0).initialState := by
  refine ⟨rfl, rfl, ?_⟩
  simp only [TransformAnim.begin, ne_eq, Option.some.injEq]
  intro h
  have := congrArg MState.posX h
  simp [refA, m0] at this

/-- Claim C2 (amended): `begin()` unconditionally re-captures both
snapshots on every call (it has no started-guard); the idempotence the
spec describes exists only at the call sites — `interpolate()` and
`finish()` invoke `begin()` only when the animation has not started, so
through those entry points no re-capture happens after the first. -/
theorem C2_begin_recapture_amended :
    (∀ (a : TransformAnim) (m : MState),
      (a.begin m).initialState = some m
      ∧ (a.begin m).finalState = some a.target_mobject
      ∧ (a.begin m).started = true)
    ∧ (∀ (a : TransformAnim) (alpha : ℚ) (m : MState), a.started = true →
        (a.interpolate alpha m).1 = a)
    ∧ (∀ (a : TransformAnim) (m : MState), a.started = true →
        (a.finish m).1 = a) := by
  refine ⟨fun a m => by simp [TransformAnim.begin], ?_, ?_⟩
  · intro a alpha m h
    rcases hI : a.initialState with _ | ini <;> rcases hF : a.finalState with _ | fin <;>
      simp [TransformAnim.interpolate, h, hI, hF]
  · intro a m h
    rcases hI : a.initialState with _ | ini <;> rcases hF : a.finalState with _ | fin <;>
      simp [TransformAnim.finish, TransformAnim.interpolate, h, hI, hF]

/-- Witness for the amended C2 theorem at a concrete begun animation. -/
theorem C2_begin_recapture_witness :
    (animA.begin m0).started = true
    ∧ ((animA.begin m0).interpolate (1/2) m0).1 = animA.begin m0
    ∧ ((animA.begin m0).finish m0).1 = animA.begin m0 :=
  ⟨rfl, C2_begin_recapture_amended.2.1 (animA.begin m0) (1/2) m0 rfl,
    C2_begin_recapture_amended.2.2 (animA.begin m0) m0 rfl⟩

/-- Claim C3 (confirmed): the rotation difference is normalized by the
two while loops into `[-pi, pi]` (so its magnitude never exceeds pi),
the rotation written at eased progress `alpha` is
`initial.rotation + alpha * diff`, and a 350-degree to 10-degree
transition yields the normalized difference of +20 degrees (a short
forward rotation, not 340 degrees backwards). -/
theorem C3_rotation_shortest_path :
    (∀ d : ℚ, |normDiff d| ≤ mathPi)
    ∧ (∀ (ini fin : MState) (alpha : ℚ),
        (transformInterp ini fin alpha).rotation
          = ini.rotation + alpha * normDiff (fin.rotation - ini.rotation))
    ∧ normDiff (10 * mathPi / 180 - 350 * mathPi / 180) = 20 * mathPi / 180 := by
  refine ⟨abs_normDiff_le, fun ini fin alpha => rfl, ?_⟩
  have h1 : stepsAbove (10 * mathPi / 180 - 350 * mathPi / 180) = 0 := by
    simp only [stepsAbove, Int.toNat_eq_zero, Int.ceil_le]
    norm_num [mathPi]
  have h2 : stepsBelow (10 * mathPi / 180 - 350 * mathPi / 180) = 1 := by
    have hc : (⌈(-mathPi - (10 * mathPi / 180 - 350 * mathPi / 180)) / (2 * mathPi)⌉ : ℤ)
        = 1 := by
      rw [Int.ceil_eq_iff]
      constructor <;> norm_num [mathPi]
    simp [stepsBelow, hc]
  have hup : wrapUpF 1 (10 * mathPi / 180 - 350 * mathPi / 180) = 20 * mathPi / 180 := by
    rw [wrapUpF, if_pos (by norm_num [mathPi])]
    show wrapUpF 0 _ = _
    rw [wrapUpF]
    norm_num [mathPi]
  simp [normDiff, wrapDown, wrapUp, h1, h2, wrapDownF, hup]

/-- Claim C4 counterexample: with the `linear` easing — whose value at
`t = 1` is exactly 1 — `finish()` does not reproduce the `final`
snapshot's rotation: transforming from rotation 0 towards rotation 4
ends at `4 - 2*pi`, because the shortest-path normalization wraps the
difference.  Moreover the constant-one easing also has value 1 at
`t = 1`, yet `interpolate(0)` under it writes the final position, not
the initial one. -/
theorem C4_endpoint_cex :
    linear 1 = 1
    ∧ (((TransformAnim.mk ({ m0 with rotation := 4 }) 1 linear false none none).begin
        m0).finish m0).2.rotation ≠ ({ m0 with rotation := 4 } : MState).rotation
    ∧ (((TransformAnim.mk refA 1 (fun _ => 1) false none none).begin m0).interpolate 0
        m0).2.posX ≠ m0.posX := by
  have hnd : normDiff 4 = 4 - 2 * mathPi := by
    have h1 : stepsAbove 4 = 1 := by
      have hc : (⌈((4:ℚ) - mathPi) / (2 * mathPi)⌉ : ℤ) = 1 := by
        rw [Int.ceil_eq_iff]
        constructor <;> norm_num [mathPi]
      simp [stepsAbove, hc]
    have h2 : stepsBelow (4 - 2 * mathPi) = 0 := by
      simp only [stepsBelow, Int.toNat_eq_zero, Int.ceil_le]
      norm_num [mathPi]
    have hd : wrapDownF 1 (4:ℚ) = 4 - 2 * mathPi := by
      rw [wrapDownF, if_pos (by norm_num [mathPi] : mathPi < (4:ℚ))]
      rfl
    simp [normDiff, wrapDown, wrapUp, h1, h2, hd, wrapUpF]
  refine ⟨rfl, ?_, ?_⟩
  · simp only [TransformAnim.begin, TransformAnim.finish, TransformAnim.interpolate,
      transformInterp, m0, linear]
    norm_num [hnd, mathPi, linear, max_def, min_def]
  · simp only [TransformAnim.begin, TransformAnim.interpolate, transformInterp, m0, refA]
    norm_num

/-- Claim C4 (amended): for every easing whose value at `t = 0` is
exactly 0 and whose value at `t = 1` is exactly 1, `interpolate(0)`
after `begin()` reproduces the `initial` snapshot exactly for every
property, and `finish()` reproduces the `final` snapshot exactly for
every property except rotation, which it reproduces up to an integer
multiple of `2*pi` (the shortest-path wrap). -/
theorem C4_endpoint_amended (tgt m mAfter : MState) (dur : ℚ) (f : ℚ → ℚ)
    (hf0 : f 0 = 0) (hf1 : f 1 = 1) :
    (((TransformAnim.mk tgt dur f false none none).begin m).interpolate 0 mAfter).2 = m
    ∧ ((((TransformAnim.mk tgt dur f false none none).begin m).finish mAfter).2.posX
        = tgt.posX
      ∧ (((TransformAnim.mk tgt dur f false none none).begin m).finish mAfter).2.posY
        = tgt.posY
      ∧ (((TransformAnim.mk tgt dur f false none none).begin m).finish
          mAfter).2.scale_factor = tgt.scale_factor
      ∧ (((TransformAnim.mk tgt dur f false none none).begin m).finish mAfter).2.opacity
        = tgt.opacity
      ∧ (((TransformAnim.mk tgt dur f false none none).begin m).finish
          mAfter).2.fill_opacity = tgt.fill_opacity
      ∧ (((TransformAnim.mk tgt dur f false none none).begin m).finish
          mAfter).2.stroke_opacity = tgt.stroke_opacity
      ∧ (((TransformAnim.mk tgt dur f false none none).begin m).finish mAfter).2.colorR
        = tgt.colorR
      ∧ (((TransformAnim.mk tgt dur f false none none).begin m).finish mAfter).2.colorG
        = tgt.colorG
      ∧ (((TransformAnim.mk tgt dur f false none none).begin m).finish mAfter).2.colorB
        = tgt.colorB
      ∧ ∃ k : ℤ, (((TransformAnim.mk tgt dur f false none none).begin m).finish
          mAfter).2.rotation = tgt.rotation + 2 * mathPi * k) := by
  have hcl0 : max 0 (min 1 (f 0)) = (0:ℚ) := by rw [hf0]; norm_num
  have hcl1 : max 0 (min 1 (f 1)) = (1:ℚ) := by rw [hf1]; norm_num
  refine ⟨?_, ?_, ?_, ?_, ?_, ?_, ?_, ?_, ?_, ?_, ?_⟩
  · ext <;>
      simp [TransformAnim.begin, TransformAnim.interpolate, hcl0, transformInterp]
  all_goals try
    simp [TransformAnim.begin, TransformAnim.interpolate, TransformAnim.finish, hcl1,
      transformInterp]
  obtain ⟨k, hk⟩ := normDiff_eq_add (tgt.rotation - m.rotation)
  refine ⟨k, ?_⟩
  simp [TransformAnim.begin, TransformAnim.interpolate, TransformAnim.finish, hcl1,
    transformInterp, hk]
  ring

/-- Witness for the amended C4 theorem with the `linear` easing at
concrete states. -/
theorem C4_endpoint_witness :
    linear 0 = 0 ∧ linear 1 = 1
    ∧ (((TransformAnim.mk refA 1 linear false none none).begin m0).interpolate 0 m0).2 = m0
    ∧ (((TransformAnim.mk refA 1 linear false none none).begin m0).finish m0).2.posX
        = refA.posX := by
  have h := C4_endpoint_amended refA m0 m0 1 linear rfl rfl
  exact ⟨rfl, rfl, h.1, h.2.1⟩

/-- Claim C5 counterexample: for the timeline `tlGap` (two 0.33 s wait
blocks at 10 fps) `total_frames()` is `round(6.6) = 7` but the block
spans are `round(3.3) = 3` each, summing to 6: frame 6 lies in
`[0, total_frames)` yet is contained in no block — the frame ranges do
not partition `[0, total_frames)` and `get_active_animations` returns
the empty list there. -/
theorem C5_partition_cex :
    tlGap.total_frames = 7
    ∧ tlGap.sumSpans = 6
    ∧ tlGap.get_active_animations id 6 = []
    ∧ ∀ i, ¬ inBlock (tlGap.blocks.map fun b => frameSpan b.2 tlGap.fps) i 6 := by
  have hspan : frameSpan (33/100) 10 = 3 := by
    have h : (⌊(33/100 * 10 : ℚ)⌋ : ℤ) = 3 := by norm_num [Int.floor_eq_iff]
    simp only [frameSpan, pyRound, h]
    norm_num
  have htot : tlGap.total_frames = 7 := by
    have h : (⌊((33/100 + (33/100 + 0)) * 10 : ℚ)⌋ : ℤ) = 6 := by
      norm_num [Int.floor_eq_iff]
    simp only [Timeline.total_frames, tlGap, List.map, List.sum_cons, List.sum_nil,
      pyRound, h]
    norm_num
  refine ⟨htot, ?_, ?_, ?_⟩
  · simp [Timeline.sumSpans, tlGap, hspan]
  · simp only [Timeline.get_active_animations, tlGap, getActiveAux, hspan]
    norm_num [getActiveAux, hspan]
  · intro i h
    obtain ⟨hlen, hle, hlt⟩ := h
    simp only [tlGap, List.map, hspan] at hlen hle hlt
    rcases i with _ | _ | i
    · simp [List.take] at hle hlt
    · simp [List.take] at hle hlt
    · simp at hlen
      omega

/-- Claim C5 (amended, timeline modelled from the spec): for a timeline
with nonnegative durations and frame rate, the block spans partition
`[0, sumSpans)`: every frame in that range is contained in exactly one
block, `get_active_animations` selects exactly that block, and it
returns a well-defined progress value (with the zero-duration guard)
for every animation of the block.  The claimed partition of
`[0, total_frames)` holds only when `total_frames()` — the round of the
summed durations — agrees with the sum of the per-block rounded spans,
which `C5_partition_cex` shows can fail. -/
theorem C5_partition_amended (tl : Timeline ℚ) (hd : ∀ b ∈ tl.blocks, 0 ≤ b.2)
    (hfps : 0 ≤ tl.fps) (frame : ℤ) (h0 : 0 ≤ frame) (hlt : frame < tl.sumSpans) :
    ∃ i, coverIdx (tl.blocks.map fun b => frameSpan b.2 tl.fps) frame = some i
      ∧ inBlock (tl.blocks.map fun b => frameSpan b.2 tl.fps) i frame
      ∧ (∀ j, inBlock (tl.blocks.map fun b => frameSpan b.2 tl.fps) j frame → j = i)
      ∧ tl.get_active_animations id frame =
          (tl.blocks.getD i ([], 0)).1.map (fun a =>
            (a, progressOf a (((frame : ℚ) -
              ((((tl.blocks.map fun b => frameSpan b.2 tl.fps).take i).sum : ℤ) : ℚ))
                / tl.fps))) := by
  have hnn : ∀ s ∈ tl.blocks.map (fun b => frameSpan b.2 tl.fps), 0 ≤ s := by
    intro s hs
    obtain ⟨b, hb, rfl⟩ := List.mem_map.mp hs
    exact pyRound_nonneg _ (mul_nonneg (hd b hb) hfps)
  have hsum : (tl.blocks.map fun b => frameSpan b.2 tl.fps).sum = tl.sumSpans := rfl
  obtain ⟨i, hcov, hin, huniq⟩ := coverIdx_spec _ frame hnn h0 (by rw [hsum]; exact hlt)
  refine ⟨i, hcov, hin, huniq, ?_⟩
  have hga := getActiveAux_spec id tl.fps tl.blocks frame i hcov
  simpa [Timeline.get_active_animations, id] using hga

/-- Witness for the amended C5 theorem on a one-block timeline at
frame 0. -/
theorem C5_partition_witness :
    (0:ℤ) < (⟨[([(1:ℚ)], 1)], 1⟩ : Timeline ℚ).sumSpans
    ∧ ∃ i, coverIdx ((⟨[([(1:ℚ)], 1)], 1⟩ : Timeline ℚ).blocks.map
        fun b => frameSpan b.2 (⟨[([(1:ℚ)], 1)], 1⟩ : Timeline ℚ).fps) 0 = some i := by
  have hspan : frameSpan (1:ℚ) 1 = 1 := by
    have h : (⌊(1 * 1 : ℚ)⌋ : ℤ) = 1 := by norm_num [Int.floor_eq_iff]
    simp only [frameSpan, pyRound, h]
    norm_num
  have hsum : (⟨[([(1:ℚ)], 1)], 1⟩ : Timeline ℚ).sumSpans = 1 := by
    simp [Timeline.sumSpans, hspan]
  refine ⟨by rw [hsum]; norm_num, ?_⟩
  obtain ⟨i, hcov, _⟩ := C5_partition_amended ⟨[([(1:ℚ)], 1)], 1⟩ (by norm_num)
    (by norm_num) 0 (by norm_num) (by rw [hsum]; norm_num)
  exact ⟨i, hcov⟩

/-- Claim C6 (confirmed): interpolation is idempotent and
non-accumulating.  For a begun animation, running `interpolate` again
with the same progress value from the state the first call produced
yields exactly the same animation object and target state, because the
written state is computed from the captured snapshots only. -/
theorem C6_interpolate_idempotent (a : TransformAnim) (alpha : ℚ) (m : MState)
    (h : a.started = true) :
    a.interpolate alpha ((a.interpolate alpha m).2) = a.interpolate alpha m := by
  rcases hI : a.initialState with _ | ini <;> rcases hF : a.finalState with _ | fin <;>
    simp [TransformAnim.interpolate, h, hI, hF]

/-- Witness for C6 at a concrete begun animation and progress 1/2. -/
theorem C6_interpolate_idempotent_witness :
    (animA.begin m0).interpolate (1/2) (((animA.begin m0).interpolate (1/2) m0).2)
      = (animA.begin m0).interpolate (1/2) m0 :=
  C6_interpolate_idempotent (animA.begin m0) (1/2) m0 rfl

/-- Claim C7 (confirmed): a queued relative `shift` is resolved at build
time.  In general a `shift(delta)` record anywhere in the queue builds
to a `Move` whose absolute target is the mobject's position at the
moment `build` runs plus `delta`; in the spec's concrete scenario —
`shift((2,0))` queued while the object was at `(1,0)`, object externally
moved to `(5,0)` before `build` — the emitted `Move` targets `(7,0)`,
not `(3,0)`. -/
theorem C7_shift_resolved_at_build :
    (∀ (pre post : List Op) (pos : ℚ × ℚ) (dx dy dur : ℚ),
      build (pre ++ Op.shift dx dy :: post) pos dur =
        build pre pos dur
          ++ BuiltAnim.Move (pos.1 + dx) (pos.2 + dy) dur :: build post pos dur)
    ∧ build [Op.shift 2 0] (5, 0) 1 = [BuiltAnim.Move 7 0 1]
    ∧ build [Op.shift 2 0] (5, 0) 1 ≠ [BuiltAnim.Move 3 0 1] := by
  refine ⟨?_, ?_, ?_⟩
  · intro pre post pos dx dy dur
    simp [build, List.filterMap_append, List.filterMap_cons]
  · simp [build, List.filterMap_cons]
    norm_num
  · simp [build, List.filterMap_cons]
    norm_num

/-- Claim C8 counterexample: negative durations are not rejected.
`Scene.wait(-1)` appends an empty block of duration `-1` to the
timeline, and `Scene.play` on an animation of duration `-1` schedules a
block of duration `-1` without raising. -/
theorem C8_negative_duration_cex :
    (Scene.wait ⟨[], 60⟩ (-1)).blocks = [([], -1)]
    ∧ Scene.play ⟨[], 60⟩ [PlayArg.anim (BuiltAnim.Direct (-1))] 1
        = (none, ⟨[([BuiltAnim.Direct (-1)], -1)], 60⟩) := by
  constructor
  · rfl
  · simp [Scene.play, collectAnims, Except.map, Timeline.add_parallel, maxDuration,
      BuiltAnim.duration]

/-- Claim C8 (amended): `Scene.play` and `Scene.wait` perform no
duration validation at call time: for every duration, including
negative ones, `wait` appends an empty block with that duration and
`play` on a single animation of that duration schedules it, with no
error surfaced. -/
theorem C8_negative_duration_amended (tl : Timeline BuiltAnim) (d x : ℚ) :
    (Scene.wait tl d).blocks = tl.blocks ++ [([], d)]
    ∧ (Scene.play tl [PlayArg.anim (BuiltAnim.Direct d)] x).1 = none
    ∧ (Scene.play tl [PlayArg.anim (BuiltAnim.Direct d)] x).2.blocks
        = tl.blocks ++ [([BuiltAnim.Direct d], d)] := by
  refine ⟨rfl, ?_, ?_⟩ <;>
    simp [Scene.play, collectAnims, Except.map, Timeline.add_parallel, maxDuration,
      BuiltAnim.duration]

/-- Claim C9 (confirmed): `Scene.play` raises `TypeError` exactly when
some argument is neither an `Animation` nor an `AnimationBuilder`, and
when it raises, the timeline is unchanged — no block has been added,
because the argument loop runs before `add_parallel`. -/
theorem C9_play_type_error (tl : Timeline BuiltAnim) (args : List PlayArg) (dur : ℚ) :
    ((Scene.play tl args dur).1 = some () ↔ PlayArg.invalid ∈ args)
    ∧ ((Scene.play tl args dur).1 = some () → (Scene.play tl args dur).2 = tl) := by
  rcases hcol : collectAnims dur args with e | l
  · cases e
    constructor
    · exact iff_of_true (by simp [Scene.play, hcol])
        ((collectAnims_error_iff dur args).mp hcol)
    · intro _
      simp [Scene.play, hcol]
  · have hninv : PlayArg.invalid ∉ args := fun hmem =>
      by simpa [hcol] using (collectAnims_error_iff dur args).mpr hmem
    cases l with
    | nil =>
      constructor
      · exact iff_of_false (by simp [Scene.play, hcol]) hninv
      · intro h
        simp [Scene.play, hcol]
    | cons a rest =>
      constructor
      · exact iff_of_false (by simp [Scene.play, hcol]) hninv
      · intro h
        simp only [Scene.play, hcol] at h
        simp at h

/-- Witness for C9 at a concrete invalid argument. -/
theorem C9_play_type_error_witness :
    (Scene.play ⟨[], 60⟩ [PlayArg.invalid] 1).1 = some ()
    ∧ (Scene.play ⟨[], 60⟩ [PlayArg.invalid] 1).2 = ⟨[], 60⟩ := by
  have h := C9_play_type_error ⟨[], 60⟩ [PlayArg.invalid] 1
  have he : (Scene.play (⟨[], 60⟩ : Timeline BuiltAnim) [PlayArg.invalid] 1).1
      = some () := h.1.mpr (by simp)
  exact ⟨he, h.2 he⟩

/-- Claim C10 (confirmed): a builder queue holding only `set_color` /
`set_opacity` records builds to the empty animation list, and a `play`
call all of whose arguments are such builders appends no block at all —
the timeline is returned unchanged and the supplied duration consumes
no time. -/
theorem C10_set_ops_dropped :
    (∀ (ops : List Op) (pos : ℚ × ℚ) (dur : ℚ), onlySetOps ops →
      build ops pos dur = [])
    ∧ (∀ (tl : Timeline BuiltAnim) (dur : ℚ) (args : List PlayArg),
        (∀ a ∈ args, ∃ pos ops, a = PlayArg.builder pos ops ∧ onlySetOps ops) →
        Scene.play tl args dur = (none, tl)) := by
  refine ⟨fun ops pos dur h => build_onlySet ops pos dur h, ?_⟩
  intro tl dur args h
  simp [Scene.play, collect_onlySet dur args h]

/-- Witness for C10: a builder queueing one `set_color` and one
`set_opacity` builds to nothing and its `play` leaves the timeline
unchanged. -/
theorem C10_set_ops_dropped_witness :
    build [Op.set_color 1 0 0, Op.set_opacity (1/2)] (0, 0) 2 = []
    ∧ Scene.play ⟨[], 60⟩
        [PlayArg.builder (0, 0) [Op.set_color 1 0 0, Op.set_opacity (1/2)]] 2
        = (none, ⟨[], 60⟩) := by
  have hops : onlySetOps [Op.set_color 1 0 0, Op.set_opacity (1/2)] := by
    intro op hop
    rcases List.mem_cons.mp hop with rfl | hop2
    · exact Or.inl ⟨1, 0, 0, rfl⟩
    rcases List.mem_cons.mp hop2 with rfl | hop3
    · exact Or.inr ⟨1/2, rfl⟩
    · simp at hop3
  refine ⟨C10_set_ops_dropped.1 _ _ _ hops, C10_set_ops_dropped.2 ⟨[], 60⟩ 2 _ ?_⟩
  intro a ha
  rcases List.mem_cons.mp ha with rfl | ha2
  · exact ⟨(0, 0), [Op.set_color 1 0 0, Op.set_opacity (1/2)], rfl, hops⟩
  · simp at ha2

end MiniManim
